import Mathlib

/-!
Verification of the asynchronous content-generation pipeline of the
seo-generate repository (task queue, worker loop, generation orchestrator
with provider fallback, and article assembler).

Go strings are modelled as lists of runes (Unicode scalar values), which is
what ranging over a Go string and `strings.Map` operate on.  Where the Go
code measures or slices by bytes (`len(s)`, `s[:n]`) the byte length is
recovered through the UTF-8 size of each rune (`csize`).  `takeBytes`
truncates to whole runes that fit in the byte budget; a Go byte slice can
additionally retain the leading bytes of a split rune, which no statement
below observes (all concrete inputs are sliced at rune boundaries).

External effects (Redis commands, database writes, HTTP calls) are passed
in as explicit oracle values and recorded as event traces, following the
structure of the corresponding Go functions statement by statement.
-/

/-- Go strings as lists of runes. -/
abbrev GoStr := List Char

/-- UTF-8 encoded size in bytes of one rune. -/
def csize (c : Char) : Nat :=
  if c.toNat < 0x80 then 1
  else if c.toNat < 0x800 then 2
  else if c.toNat < 0x10000 then 3
  else 4

/-- Byte length of a Go string, as computed by Go `len`. -/
def byteLen (s : GoStr) : Nat := (s.map csize).sum

/-- Truncation to a byte budget, keeping whole runes (models `s[:n]` at rune
granularity). -/
def takeBytes (n : Nat) : GoStr → GoStr
  | [] => []
  | c :: rest => if csize c ≤ n then c :: takeBytes (n - csize c) rest else []

theorem csize_pos (c : Char) : 1 ≤ csize c := by
  unfold csize
  split <;> [skip; split] <;> [omega; skip; split] <;> omega

theorem byteLen_nil : byteLen [] = 0 := rfl

theorem byteLen_cons (c : Char) (s : GoStr) :
    byteLen (c :: s) = csize c + byteLen s := by
  simp [byteLen]

theorem byteLen_append (a b : GoStr) :
    byteLen (a ++ b) = byteLen a + byteLen b := by
  induction a with
  | nil => simp [byteLen]
  | cons c rest ih => simp [byteLen_cons, ih, Nat.add_assoc]

theorem byteLen_takeBytes_le (n : Nat) (s : GoStr) :
    byteLen (takeBytes n s) ≤ n := by
  induction s generalizing n with
  | nil => simp [takeBytes, byteLen]
  | cons c rest ih =>
    simp only [takeBytes]
    split
    · rename_i h
      have := ih (n - csize c)
      rw [byteLen_cons]
      omega
    · simp [byteLen]

theorem takeBytes_eq_take (n : Nat) (s : GoStr) :
    ∃ k, takeBytes n s = s.take k := by
  induction s generalizing n with
  | nil => exact ⟨0, rfl⟩
  | cons c rest ih =>
    simp only [takeBytes]
    split
    · obtain ⟨k, hk⟩ := ih (n - csize c)
      exact ⟨k + 1, by simp [hk]⟩
    · exact ⟨0, rfl⟩

theorem mem_takeBytes {c : Char} {n : Nat} {s : GoStr}
    (h : c ∈ takeBytes n s) : c ∈ s := by
  obtain ⟨k, hk⟩ := takeBytes_eq_take n s
  rw [hk] at h
  exact List.mem_of_mem_take h

/-- Runes of size one have byte length equal to rune count. -/
theorem byteLen_eq_length (s : GoStr) (h : ∀ c ∈ s, csize c = 1) :
    byteLen s = s.length := by
  induction s with
  | nil => rfl
  | cons c rest ih =>
    rw [byteLen_cons, h c (by simp), ih fun d hd => h d (by simp [hd])]
    simp [Nat.add_comm]

/-- Modelled from Go `unicode.IsControl`: the Cc category, that is
U+0000..U+001F and U+007F..U+009F. -/
def goIsControl (c : Char) : Bool :=
  decide (c.toNat < 0x20) || (decide (0x7F ≤ c.toNat) && decide (c.toNat ≤ 0x9F))

/-- Modelled from Go `unicode.IsPrint`.  Below 0x100 this is the exact
Latin-1 table of the Go unicode package (printable ASCII, and 0xA1..0xFF
minus the soft hyphen 0xAD).  Above 0xFF Go consults the full Unicode
category tables (printable means letters, marks, numbers, punctuation and
symbols); transcribing those tables is out of scope, so this embedding
classifies the high code points the file actually touches - CJK ideographs
are printable, the listed separator/format code points are not - and treats
every other high code point as printable.  No theorem below depends on a
code point where this differs from the Go tables. -/
def goIsPrint (c : Char) : Bool :=
  let n := c.toNat
  if n < 0x100 then
    (decide (0x20 ≤ n) && decide (n ≤ 0x7E)) ||
      (decide (0xA1 ≤ n) && decide (n ≤ 0xFF) && !(n == 0xAD))
  else
    !(n == 0x2028 || n == 0x2029 || n == 0x200B || n == 0x200C ||
      n == 0x200D || n == 0x200E || n == 0x200F || n == 0xFEFF || n == 0x3000)

/-- Modelled from Go `unicode.IsSpace` (the White_Space property). -/
def goIsSpace (c : Char) : Bool :=
  let n := c.toNat
  n == 0x20 || n == 0x09 || n == 0x0A || n == 0x0B || n == 0x0C ||
    n == 0x0D || n == 0x85 || n == 0xA0 || n == 0x1680 ||
    (decide (0x2000 ≤ n) && decide (n ≤ 0x200A)) ||
    n == 0x2028 || n == 0x2029 || n == 0x202F || n == 0x205F || n == 0x3000

/-! ## pkg/ai: FilterContent (deepseek.go lines 298-330) -/

/-- First pass of `FilterContent`: every rune that is not printable and not
newline or tab is replaced by a space. -/
def filterKeepOrSpace (c : Char) : Char :=
  if goIsPrint c || c == '\n' || c == '\t' then c else ' '

/-- Third pass of `FilterContent`: `strings.Map` dropping control runes
other than newline and tab. -/
def filterDropControl (c : Char) : Bool :=
  !(goIsControl c && !(c == '\n') && !(c == '\t'))

/-- Translated from `FilterContent` in pkg/ai/deepseek.go.  The middle
`utf8.ValidString` coercion is the identity in the rune model, where every
element is already a valid scalar value. -/
def FilterContent (content : GoStr) : GoStr :=
  ((content.map filterKeepOrSpace).filter filterDropControl)

theorem filterKeepOrSpace_fix (c : Char) :
    filterKeepOrSpace (filterKeepOrSpace c) = filterKeepOrSpace c := by
  by_cases h : goIsPrint c || c == '\n' || c == '\t'
  · simp [filterKeepOrSpace, h]
  · have h1 : filterKeepOrSpace c = ' ' := by simp [filterKeepOrSpace, h]
    rw [h1]
    decide

theorem map_id_of_mem {α : Type} (f : α → α) (l : List α)
    (h : ∀ x ∈ l, f x = x) : l.map f = l := by
  induction l with
  | nil => rfl
  | cons a rest ih =>
    simp only [List.map_cons, h a (by simp), List.cons.injEq, true_and]
    exact ih fun x hx => h x (by simp [hx])

theorem filter_mem_self {α : Type} (p : α → Bool) (l : List α)
    (h : ∀ x ∈ l, p x = true) : l.filter p = l := by
  induction l with
  | nil => rfl
  | cons a rest ih =>
    simp only [List.filter_cons, h a (by simp), if_true]
    rw [ih fun x hx => h x (by simp [hx])]

/-- C10: FilterContent is idempotent: applying it to its own output returns
the output unchanged, because the output consists of printable runes plus
newline and tab (with non-printables already replaced by spaces), all of
which both passes of the filter leave alone. -/
theorem FilterContent_idempotent (s : GoStr) :
    FilterContent (FilterContent s) = FilterContent s := by
  unfold FilterContent
  have hmap :
      ((s.map filterKeepOrSpace).filter filterDropControl).map filterKeepOrSpace
        = (s.map filterKeepOrSpace).filter filterDropControl := by
    apply map_id_of_mem
    intro x hx
    have hx2 : x ∈ s.map filterKeepOrSpace := List.mem_of_mem_filter hx
    obtain ⟨y, _, hy⟩ := List.mem_map.1 hx2
    rw [← hy]
    exact filterKeepOrSpace_fix y
  rw [hmap]
  apply filter_mem_self
  intro x hx
  exact List.of_mem_filter hx

/-! ## internal/services: generateSummary (content_service.go lines 303-310) -/

/-- Newline replacement done by `strings.ReplaceAll(content, "\n", " ")`. -/
def replaceNewlines (s : GoStr) : GoStr :=
  s.map fun r => if r == '\n' then ' ' else r

/-- Translated from `generateSummary` in content_service.go: replace
newlines by spaces, then if the Go byte length exceeds 300, keep the first
300 bytes and append the three-dot ellipsis. -/
def generateSummary (content : GoStr) : GoStr :=
  if 300 < byteLen (replaceNewlines content) then
    takeBytes 300 (replaceNewlines content) ++ ("...").data
  else replaceNewlines content

theorem byteLen_replaceNewlines (s : GoStr) :
    byteLen (replaceNewlines s) = byteLen s := by
  induction s with
  | nil => rfl
  | cons c rest ih =>
    simp only [replaceNewlines, List.map_cons, byteLen_cons] at *
    rw [ih]
    congr 1
    by_cases h : c == '\n'
    · simp only [h, if_true]
      have : c = '\n' := by exact_mod_cast (beq_iff_eq ..).1 h
      rw [this]
      decide
    · simp [h]

/-- C4 (amended): the summary is at most 303 bytes long (300 plus the
3-byte ellipsis), and inputs whose Go byte length is at most 300 are
returned verbatim after newline replacement; lengths are the byte lengths
the code measures, not rune counts. -/
theorem generateSummary_bounds (content : GoStr) :
    byteLen (generateSummary content) ≤ 303 ∧
      (byteLen content ≤ 300 →
        generateSummary content = replaceNewlines content) := by
  constructor
  · unfold generateSummary
    split
    · rw [byteLen_append]
      have h1 := byteLen_takeBytes_le 300 (replaceNewlines content)
      have h2 : byteLen (("...").data) = 3 := by decide
      omega
    · rename_i h
      omega
  · intro h
    unfold generateSummary
    rw [if_neg]
    rw [byteLen_replaceNewlines]
    omega

/-- Witness for the verbatim branch of the amended C4 theorem at a concrete
short input. -/
theorem generateSummary_bounds_witness :
    byteLen (generateSummary (("hello\nworld").data)) ≤ 303 ∧
      generateSummary (("hello\nworld").data) =
        replaceNewlines (("hello\nworld").data) :=
  ⟨(generateSummary_bounds (("hello\nworld").data)).1,
    (generateSummary_bounds (("hello\nworld").data)).2 (by decide)⟩

/-- C4 counterexample: 101 CJK runes are 101 characters (at most 300) but
303 bytes, so the claim as stated - inputs of at most 300 characters come
back verbatim - fails: the code truncates at byte 300 and appends the
ellipsis. -/
theorem generateSummary_charlen_ce :
    (List.replicate 101 '中').length ≤ 300 ∧
      (generateSummary (List.replicate 101 '中') ==
        List.replicate 101 '中') = false := by
  constructor
  · simp
  · decide

/-! ## internal/services: the storage cleaning filter
(GenerateArticle, content_service.go lines 131-150) -/

/-- Translated from the `strings.Map` applied to title, content and summary
before persisting.  In Go, `r < 32 || r > 126 && r < 256` parses as
`r < 32 || (r > 126 && r < 256)` because `&&` binds tighter than `||`. -/
def cleanForStorage (s : GoStr) : GoStr :=
  s.filter fun r =>
    !(decide (r.toNat < 32) || (decide (126 < r.toNat) && decide (r.toNat < 256)))

/-- Keep condition stated as ranges: printable ASCII, or any rune at or
above 0x100. -/
def latin1KeepSpec (r : Char) : Bool :=
  (decide (32 ≤ r.toNat) && decide (r.toNat ≤ 126)) || decide (256 ≤ r.toNat)

/-- C6 (amended): the storage filter drops every rune below 32 and every
rune in 127..255, and keeps everything else - printable ASCII and every
rune at or above 256, including CJK text.  It does not discard characters
outside the Latin-1-printable range in general: only the 127..255 band is
dropped, while CJK passes through (and Latin-1 printables such as 0xE9 are
dropped). -/
theorem cleanForStorage_ranges (s : GoStr) :
    cleanForStorage s = s.filter latin1KeepSpec := by
  unfold cleanForStorage
  apply List.filter_congr
  intro r _
  rw [Bool.eq_iff_iff]
  simp only [Bool.not_eq_true', Bool.or_eq_false_iff, Bool.and_eq_false_iff,
    decide_eq_false_iff_not, Nat.not_lt, latin1KeepSpec, Bool.or_eq_true,
    Bool.and_eq_true, decide_eq_true_eq]
  omega

/-- C6 counterexample: the CJK rune 0x517B survives the storage filter
(while the control rune 0x07 and the Latin-1 printable 0xE9 are dropped),
so the stored text is not confined to the printable ASCII/Latin-1 range. -/
theorem cleanForStorage_keeps_cjk_ce :
    cleanForStorage (("养生A\x07é").data) = ("养生A").data ∧
      255 < ('养').toNat := by
  constructor
  · decide
  · decide

/-! ## internal/services: queue service (queue_service.go) -/

/-- Task status strings used by the queue service. -/
inductive QStatus
  | pending
  | running
  | completed
  | failed
deriving DecidableEq, Repr

/-- The queue GenerationTask struct (queue_service.go lines 31-40), with
times as abstract ticks. -/
structure GenerationTask where
  id : GoStr
  keywordID : Nat
  categoryIDs : List Nat
  status : QStatus
  errorMsg : GoStr
  createdAt : Nat
  updatedAt : Nat
  userID : Nat
deriving DecidableEq

/-- Outcome of the Redis Get on the status key: the evicted/missing key
(redis.Nil), a transport error, or a payload whose JSON decoding is part of
the oracle (an Except mirroring json.Unmarshal). -/
inductive RedisGetResult
  | nil
  | err (msg : GoStr)
  | ok (payload : Except GoStr GenerationTask)

/-- Translated from `GetTask` (queue_service.go lines 86-111): an
existence-checked read of the status key.  `mem` is the SIsMember outcome,
`get` the Get outcome. -/
def getTask (mem : Except GoStr Bool) (get : RedisGetResult) :
    Except GoStr GenerationTask :=
  match mem with
  | .error e => .error (("检查任务是否存在失败: ").data ++ e)
  | .ok false => .error (("任务不存在").data)
  | .ok true =>
    match get with
    | .nil => .error (("任务不存在").data)
    | .err e => .error (("获取任务信息失败: ").data ++ e)
    | .ok (.error e) => .error (("解析任务信息失败: ").data ++ e)
    | .ok (.ok t) => .ok t

/-- C7 counterexample: an id absent from the existence set and an id
present in the set whose status key has been evicted produce the very same
error value, so the two failures are not distinguishable by the caller. -/
theorem getTask_same_error_ce :
    getTask (.ok false) .nil = .error (("任务不存在").data) ∧
      getTask (.ok true) .nil = .error (("任务不存在").data) ∧
      getTask (.ok false) .nil = getTask (.ok true) .nil :=
  ⟨rfl, rfl, rfl⟩

/-- C7 (amended): GetStatus performs an existence-checked read - an id
absent from the existence set fails with the task-not-found error no matter
what the status key holds, and an id present in the set whose status key
was evicted fails with the same task-not-found error; the code does not
distinguish the two cases. -/
theorem getTask_notfound_behavior (get : RedisGetResult) :
    getTask (.ok false) get = .error (("任务不存在").data) ∧
      getTask (.ok true) .nil = getTask (.ok false) get := by
  constructor
  · rfl
  · rfl

/-! ### Task ids and BatchAddTasks -/

/-- One decimal digit as a rune. -/
def digitChar (d : Nat) : Char := Char.ofNat (48 + d)

/-- Decimal digits of a natural number (the `%d` of fmt.Sprintf), with
explicit fuel so that it is structural. -/
def natDigitsAux : Nat → Nat → GoStr
  | 0, _ => []
  | fuel + 1, n =>
    if n < 10 then [digitChar n]
    else natDigitsAux fuel (n / 10) ++ [digitChar (n % 10)]

def natDigits (n : Nat) : GoStr := natDigitsAux (n + 1) n

theorem natDigitsAux_fuel (f g n : Nat) (hf : n < f) (hg : n < g) :
    natDigitsAux f n = natDigitsAux g n := by
  induction n using Nat.strong_induction_on generalizing f g with
  | _ n ih =>
    match f, g with
    | f' + 1, g' + 1 =>
      simp only [natDigitsAux]
      split
      · rfl
      · rename_i h
        have hlt : n / 10 < n := Nat.div_lt_self (by omega) (by omega)
        rw [ih (n / 10) hlt f' g' (by omega) (by omega)]

theorem natDigits_lt10 (n : Nat) (h : n < 10) : natDigits n = [digitChar n] := by
  simp [natDigits, natDigitsAux, h]

theorem natDigits_ge10 (n : Nat) (h : 10 ≤ n) :
    natDigits n = natDigits (n / 10) ++ [digitChar (n % 10)] := by
  have hlt : n / 10 < n := Nat.div_lt_self (by omega) (by omega)
  have step : natDigits n = natDigitsAux n (n / 10) ++ [digitChar (n % 10)] := by
    show natDigitsAux (n + 1) n = _
    rw [natDigitsAux, if_neg (Nat.not_lt.2 h)]
  rw [step, natDigitsAux_fuel n (n / 10 + 1) (n / 10) hlt (by omega)]
  rfl

theorem natDigits_ne_nil (n : Nat) : natDigits n ≠ [] := by
  by_cases h : n < 10
  · rw [natDigits_lt10 n h]
    simp
  · rw [natDigits_ge10 n (by omega)]
    simp

/-- Is the rune a decimal digit. -/
def isDigitB (c : Char) : Bool := decide (48 ≤ c.toNat) && decide (c.toNat ≤ 57)

theorem digitChar_toNat (d : Nat) (h : d < 10) :
    (digitChar d).toNat = 48 + d := by
  interval_cases d <;> decide

theorem isDigitB_digitChar (d : Nat) (h : d < 10) :
    isDigitB (digitChar d) = true := by
  simp only [isDigitB, digitChar_toNat d h]
  simp
  omega

theorem natDigits_all_digits (n : Nat) : ∀ c ∈ natDigits n, isDigitB c = true := by
  induction n using Nat.strong_induction_on with
  | _ n ih =>
    by_cases h : n < 10
    · rw [natDigits_lt10 n h]
      intro c hc
      simp at hc
      rw [hc]
      exact isDigitB_digitChar n h
    · rw [natDigits_ge10 n (by omega)]
      intro c hc
      rcases List.mem_append.1 hc with hc | hc
      · exact ih (n / 10) (Nat.div_lt_self (by omega) (by omega)) c hc
      · simp at hc
        rw [hc]
        exact isDigitB_digitChar (n % 10) (Nat.mod_lt n (by omega))

/-- Decimal value of a digit string (left fold, used to invert natDigits). -/
def digitsVal (s : GoStr) : Nat :=
  s.foldl (fun acc c => acc * 10 + (c.toNat - 48)) 0

theorem digitsVal_append_digit (l : GoStr) (c : Char) :
    digitsVal (l ++ [c]) = digitsVal l * 10 + (c.toNat - 48) := by
  simp [digitsVal, List.foldl_append]

theorem digitsVal_natDigits (n : Nat) : digitsVal (natDigits n) = n := by
  induction n using Nat.strong_induction_on with
  | _ n ih =>
    by_cases h : n < 10
    · rw [natDigits_lt10 n h]
      simp [digitsVal, digitChar_toNat n h]
    · rw [natDigits_ge10 n (by omega), digitsVal_append_digit,
        ih (n / 10) (Nat.div_lt_self (by omega) (by omega)),
        digitChar_toNat (n % 10) (Nat.mod_lt n (by omega))]
      omega

/-- Task id built by BatchAddTasks (queue_service.go line 207):
`fmt.Sprintf("task_%d_%d", keywordID, time.Now().UnixNano())`. -/
def mkTaskID (kw t : Nat) : GoStr :=
  ("task_").data ++ natDigits kw ++ '_' :: natDigits t

/-- Recovers the timestamp component of a task id: the digit run after the
final underscore. -/
def decodeTime (id : GoStr) : Nat :=
  digitsVal ((id.reverse.takeWhile fun c => !(c == '_')).reverse)

theorem takeWhile_append_stop {α : Type} (p : α → Bool) (l1 : List α) (x : α)
    (l2 : List α) (h1 : ∀ c ∈ l1, p c = true) (hx : p x = false) :
    List.takeWhile p (l1 ++ x :: l2) = l1 := by
  induction l1 with
  | nil => simp [List.takeWhile_cons, hx]
  | cons a rest ih =>
    simp only [List.cons_append, List.takeWhile_cons, h1 a (by simp), if_true,
      List.cons.injEq, true_and]
    exact ih fun c hc => h1 c (by simp [hc])

theorem decodeTime_mkTaskID (kw t : Nat) : decodeTime (mkTaskID kw t) = t := by
  unfold decodeTime mkTaskID
  have hrev :
      ((("task_").data ++ natDigits kw ++ '_' :: natDigits t).reverse)
        = (natDigits t).reverse ++ '_' ::
            ((natDigits kw).reverse ++ (("task_").data).reverse) := by
    simp [List.reverse_append]
  rw [hrev, takeWhile_append_stop _ _ _ _ ?_ (by decide)]
  · simp [digitsVal_natDigits]
  · intro c hc
    have hd := natDigits_all_digits t c (by simpa using hc)
    simp only [Bool.not_eq_true', beq_eq_false_iff_ne, ne_eq]
    intro hce
    rw [hce] at hd
    simp [isDigitB] at hd

/-- Translated from `AddTask` (queue_service.go lines 61-83): stamp
status=pending and the times, serialize (total for this struct), then run
the Redis pipeline whose outcome is the `exec` oracle.  Returns the task as
stored. -/
def addTask (exec : Except GoStr Unit) (task : GenerationTask) (now : Nat) :
    Except GoStr GenerationTask :=
  let stamped :=
    { task with status := QStatus.pending, createdAt := now, updatedAt := now }
  match exec with
  | .error e => .error (("添加任务到队列失败: ").data ++ e)
  | .ok _ => .ok stamped

/-- Translated from `BatchAddTasks` (queue_service.go lines 203-221).  Each
list element carries one iteration: keyword id, the UnixNano tick, and the
pipeline outcome for its AddTask call.  The first component is the return
value (ids or error); the second records which tasks were actually
enqueued.  The zero-valued status of the Go struct literal is represented
as pending, which AddTask immediately stamps anyway. -/
def batchAddTasks (categoryIDs : List Nat) (userID : Nat) :
    List (Nat × Nat × Except GoStr Unit) →
      Except GoStr (List GoStr) × List GoStr
  | [] => (.ok [], [])
  | (kw, t, exec) :: rest =>
    let task : GenerationTask :=
      { id := mkTaskID kw t, keywordID := kw, categoryIDs := categoryIDs,
        status := QStatus.pending, errorMsg := [], createdAt := 0,
        updatedAt := 0, userID := userID }
    match addTask exec task t with
    | .error e => (.error (("添加任务失败: ").data ++ e), [])
    | .ok stored =>
      let r := batchAddTasks categoryIDs userID rest
      (r.1.map fun ids => stored.id :: ids, stored.id :: r.2)

/-- C8 counterexample: with two keyword ids where the first enqueue fails
and the second would succeed, BatchAddTasks returns only the error and the
second task is never enqueued - the failure of one task prevents the
remaining tasks from being enqueued. -/
theorem batchAddTasks_abort_ce :
    batchAddTasks [] 7 [(1, 11, .error (("boom").data)), (2, 12, .ok ())] =
        (.error (("添加任务失败: 添加任务到队列失败: boom").data), []) ∧
      (batchAddTasks [] 7 [(1, 11, .ok ()), (2, 12, .ok ())]).2 =
        [mkTaskID 1 11, mkTaskID 2 12] := by
  constructor
  · rfl
  · rfl

/-- C8 (amended): BatchAddTasks is a fan-out of AddTask that aborts at the
first failure: when every enqueue succeeds each keyword id gets its own
task record whose id is task_(keyword)_(tick) - ids are distinct whenever
the per-call ticks are distinct, since the tick is recoverable from the id
- but a failing enqueue makes the whole call return an error immediately,
so no later task is enqueued and no ids are returned. -/
theorem batchAddTasks_fanout_spec :
    (∀ (cat : List Nat) (uid : Nat) (ps : List (Nat × Nat)),
      batchAddTasks cat uid (ps.map fun p => (p.1, p.2, Except.ok ())) =
        (.ok (ps.map fun p => mkTaskID p.1 p.2),
          ps.map fun p => mkTaskID p.1 p.2)) ∧
    (∀ (cat : List Nat) (uid kw t : Nat) (e : GoStr)
        (rest : List (Nat × Nat × Except GoStr Unit)),
      batchAddTasks cat uid ((kw, t, Except.error e) :: rest) =
        (.error ((("添加任务失败: 添加任务到队列失败: ").data ++ e)), [])) ∧
    (∀ kw t, decodeTime (mkTaskID kw t) = t) := by
  refine ⟨?_, ?_, decodeTime_mkTaskID⟩
  · intro cat uid ps
    induction ps with
    | nil => rfl
    | cons p rest ih =>
      simp only [List.map_cons, batchAddTasks, addTask, ih, Except.map]
  · intro cat uid kw t e rest
    show (Except.error ((("添加任务失败: ").data ++ (("添加任务到队列失败: ").data ++ e))),
        ([] : List GoStr)) = _
    rw [← List.append_assoc]
    rfl

/-! ## internal/services: the worker loop
(ProcessTasks and updateTaskStatus, queue_service.go lines 113-176) -/

/-- One observable effect of the worker loop on a task: a write of the
status key (updateTaskStatus) carrying the status and error message, or the
db.Save attaching the article author. -/
inductive WorkerEvent
  | statusWrite (status : QStatus) (errorMsg : GoStr)
  | authorSave
deriving DecidableEq, Repr

/-- Translated from the per-task body of `ProcessTasks` (queue_service.go
lines 135-167): persist running; resolve the keyword (`keywordFetch`
oracle, failure writes failed and the loop continues); generate the article
(`generate` oracle, failure writes failed); on success persist completed
and then, only when the task has a positive user id, save the article with
its author. -/
def processTask (keywordFetch : Except GoStr Unit) (generate : Except GoStr Unit)
    (userID : Nat) : List WorkerEvent :=
  WorkerEvent.statusWrite QStatus.running [] ::
    match keywordFetch with
    | .error e =>
      [WorkerEvent.statusWrite QStatus.failed (("获取关键词失败: ").data ++ e)]
    | .ok _ =>
      match generate with
      | .error e =>
        [WorkerEvent.statusWrite QStatus.failed (("生成文章失败: ").data ++ e)]
      | .ok _ =>
        WorkerEvent.statusWrite QStatus.completed [] ::
          if 0 < userID then [WorkerEvent.authorSave] else []

/-- The statuses written to the status key, in order. -/
def statusWrites (tr : List WorkerEvent) : List QStatus :=
  tr.filterMap fun e =>
    match e with
    | .statusWrite st _ => some st
    | .authorSave => none

/-- The forward transitions of the task state machine. -/
def allowedNext : QStatus → QStatus → Bool
  | .pending, .running => true
  | .running, .completed => true
  | .running, .failed => true
  | _, _ => false

/-- C1: for every task processed by the worker loop, the write sequence of
statuses - pending stamped at enqueue time, then the writes of the loop
body - only steps forward along pending, running, then completed or failed;
in particular no write leaves a terminal state and nothing re-enters
pending. -/
theorem processTask_status_monotone (kw gen : Except GoStr Unit) (uid : Nat) :
    List.Chain' (fun a b => allowedNext a b = true)
      (QStatus.pending :: statusWrites (processTask kw gen uid)) := by
  cases kw with
  | error e => simp [processTask, statusWrites, allowedNext]
  | ok u =>
    cases gen with
    | error e => simp [processTask, statusWrites, allowedNext]
    | ok v =>
      by_cases h : 0 < uid <;>
        simp [processTask, statusWrites, allowedNext, h]

/-- Does the trace contain a completed status write. -/
def completedIn (tr : List WorkerEvent) : Bool :=
  tr.any fun e =>
    match e with
    | .statusWrite .completed _ => true
    | _ => false

/-- Does the trace contain the author save. -/
def authorIn (tr : List WorkerEvent) : Bool :=
  tr.any fun e =>
    match e with
    | .authorSave => true
    | _ => false

/-- True when some author save occurs strictly before some completed status
write; the flag carries whether an author save was already seen. -/
def authorBeforeCompleted : Bool → List WorkerEvent → Bool
  | _, [] => false
  | sawAuthor, e :: rest =>
    match e with
    | .authorSave => authorBeforeCompleted true rest
    | .statusWrite .completed _ => sawAuthor || authorBeforeCompleted sawAuthor rest
    | _ => authorBeforeCompleted sawAuthor rest

/-- Error messages carried by failed status writes. -/
def failedErrs (tr : List WorkerEvent) : List GoStr :=
  tr.filterMap fun e =>
    match e with
    | .statusWrite .failed m => some m
    | _ => none

/-- Success flag of an oracle outcome. -/
def exceptOk {α β : Type} : Except α β → Bool
  | .ok _ => true
  | .error _ => false

/-- C9 counterexample: on a successful generation for a task with user id
1, the worker writes completed FIRST and saves the article author after it
- no author save precedes the completed write - contradicting the claimed
order (persistence sink before the completed status). -/
theorem processTask_author_order_ce :
    processTask (.ok ()) (.ok ()) 1 =
        [WorkerEvent.statusWrite QStatus.running [],
          WorkerEvent.statusWrite QStatus.completed [],
          WorkerEvent.authorSave] ∧
      authorBeforeCompleted false (processTask (.ok ()) (.ok ()) 1) = false := by
  constructor
  · decide
  · decide

/-- C9 (amended): the worker first persists running; it persists completed
exactly on success and only afterwards saves article authorship (and only
when the task user id is positive, so the author save never precedes the
completed write); every failure - keyword resolution or generation -
produces a failed write carrying a non-empty error text, and the loop body
returns normally so the loop continues with the next task. -/
theorem processTask_event_order (kw gen : Except GoStr Unit) (uid : Nat) :
    (processTask kw gen uid).head? =
        some (WorkerEvent.statusWrite QStatus.running []) ∧
      completedIn (processTask kw gen uid) = (exceptOk kw && exceptOk gen) ∧
      authorBeforeCompleted false (processTask kw gen uid) = false ∧
      authorIn (processTask kw gen uid) =
        (exceptOk kw && exceptOk gen && decide (0 < uid)) ∧
      (failedErrs (processTask kw gen uid)).all (fun m => !m.isEmpty) = true := by
  cases kw with
  | error e => exact ⟨rfl, rfl, rfl, rfl, rfl⟩
  | ok u =>
    cases gen with
    | error e => exact ⟨rfl, rfl, rfl, rfl, rfl⟩
    | ok v =>
      by_cases h : 0 < uid <;>
        simp [processTask, completedIn, authorIn, authorBeforeCompleted,
          failedErrs, exceptOk, h]

/-! ## pkg/ai + internal/services: the generation orchestrator
(DeepSeekClient.GenerateContent, OllamaClient.GenerateContent, and the
fallback in GenerateArticle, content_service.go lines 61-96) -/

/-- HTTP oracle for one provider call: a transport failure (which is also
how a context timeout surfaces from http.Client.Do), a body-read failure,
or a response carrying the status code, the raw body text, and the JSON
decoding outcome of that body. -/
inductive HttpOutcome (β : Type)
  | transportError (msg : GoStr)
  | readError (status : Nat) (msg : GoStr)
  | response (status : Nat) (raw : GoStr) (body : Except GoStr β)

/-- Translated from `DeepSeekClient.GenerateContent` (deepseek.go lines
89-175): fail on transport or read errors, reject non-200 statuses with the
raw body, reject an undecodable body, reject an empty choices list, and
otherwise return the first choice message content.  The decoded body is the
list of choice message contents. -/
def deepseekGenerateContent (h : HttpOutcome (List GoStr)) : Except GoStr GoStr :=
  match h with
  | .transportError m => .error (("请求失败: ").data ++ m)
  | .readError _ m => .error (("读取响应体失败: ").data ++ m)
  | .response status raw body =>
    if status == 200 then
      match body with
      | .error jm => .error (("解析响应失败: ").data ++ jm)
      | .ok [] => .error (("没有内容返回").data)
      | .ok (c :: _) => .ok c
    else .error (("API错误: ").data ++ raw)

/-- Translated from `OllamaClient.GenerateContent` (ollama.go lines
50-121): same shape, but the decoded body is the single Response field and
there is no emptiness check on it. -/
def ollamaGenerateContent (h : HttpOutcome GoStr) : Except GoStr GoStr :=
  match h with
  | .transportError m => .error (("请求失败: ").data ++ m)
  | .readError _ m => .error (("读取响应体失败: ").data ++ m)
  | .response status raw body =>
    if status == 200 then
      match body with
      | .error jm => .error (("解析响应失败: ").data ++ jm)
      | .ok resp => .ok resp
    else .error (("API错误: ").data ++ raw)

/-- The slice of config.AI the orchestrator reads: both provider wrappers
build their per-call context with the same `Timeout` seconds. -/
structure AIConfig where
  timeout : Nat

/-- Observable outcome of the generation phase of GenerateArticle: the
provider attempts in order (name and per-call timeout), the returned
content or error, and the generation-task row fields it leaves behind. -/
structure GenPhase where
  attempts : List (GoStr × Nat)
  result : Except GoStr GoStr
  taskStatus : GoStr
  errorMessage : GoStr
  modelUsed : GoStr

/-- Translated from GenerateArticle lines 73-96: try DeepSeek; on failure
record the error on the task row and try Ollama; if that fails too, mark
the task row failed with the second error and return the wrapped error;
otherwise record which model was used.  The task row starts as processing
(set at creation, line 65). -/
def generateArticleGen (cfg : AIConfig) (ds ol : Except GoStr GoStr) : GenPhase :=
  match ds with
  | .ok content =>
    { attempts := [(("deepseek").data, cfg.timeout)],
      result := .ok content,
      taskStatus := ("processing").data,
      errorMessage := [],
      modelUsed := ("deepseek").data }
  | .error e1 =>
    match ol with
    | .ok content =>
      { attempts := [(("deepseek").data, cfg.timeout), (("ollama").data, cfg.timeout)],
        result := .ok content,
        taskStatus := ("processing").data,
        errorMessage := e1,
        modelUsed := ("ollama").data }
    | .error e2 =>
      { attempts := [(("deepseek").data, cfg.timeout), (("ollama").data, cfg.timeout)],
        result := .error (("生成内容失败: ").data ++ e2),
        taskStatus := ("failed").data,
        errorMessage := e2,
        modelUsed := [] }

/-- The generation phase driven by the two HTTP oracles. -/
def genPipeline (cfg : AIConfig) (dso : HttpOutcome (List GoStr))
    (olo : HttpOutcome GoStr) : GenPhase :=
  generateArticleGen cfg (deepseekGenerateContent dso) (ollamaGenerateContent olo)

theorem ollamaGenerateContent_error_ne (h : HttpOutcome GoStr) (e : GoStr)
    (he : ollamaGenerateContent h = .error e) : e.isEmpty = false := by
  cases h with
  | transportError m =>
    simp only [ollamaGenerateContent, Except.error.injEq] at he
    rw [← he]
    rfl
  | readError s m =>
    simp only [ollamaGenerateContent, Except.error.injEq] at he
    rw [← he]
    rfl
  | response status raw body =>
    simp only [ollamaGenerateContent] at he
    by_cases hs : status == 200
    · rw [if_pos hs] at he
      cases body with
      | error jm =>
        simp only [Except.error.injEq] at he
        rw [← he]
        rfl
      | ok resp => simp at he
    · rw [if_neg hs] at he
      simp only [Except.error.injEq] at he
      rw [← he]
      rfl

/-- C2: generation tries DeepSeek first and, exactly when that attempt
fails (transport error or timeout, read error, non-success status,
undecodable body, or empty choices), retries once against Ollama under the
same configured timeout, never trying a third provider; the returned value
is DeepSeek content, else Ollama content, else the wrapped
generation-failed error carrying the last (Ollama) error; and when both
fail the generation task row ends failed with a non-empty error message. -/
theorem generateArticle_fallback_policy (cfg : AIConfig)
    (dso : HttpOutcome (List GoStr)) (olo : HttpOutcome GoStr) :
    (genPipeline cfg dso olo).attempts =
        (("deepseek").data, cfg.timeout) ::
          (match deepseekGenerateContent dso with
           | .ok _ => []
           | .error _ => [(("ollama").data, cfg.timeout)]) ∧
      (genPipeline cfg dso olo).result =
        (match deepseekGenerateContent dso with
         | .ok c => .ok c
         | .error _ =>
           match ollamaGenerateContent olo with
           | .ok c => .ok c
           | .error e => .error (("生成内容失败: ").data ++ e)) ∧
      ((match deepseekGenerateContent dso, ollamaGenerateContent olo with
        | .error _, .error _ =>
          ((genPipeline cfg dso olo).taskStatus == ("failed").data) &&
            !(genPipeline cfg dso olo).errorMessage.isEmpty
        | _, _ => true) : Bool) = true := by
  cases hds : deepseekGenerateContent dso with
  | ok c => simp [genPipeline, generateArticleGen, hds]
  | error e1 =>
    cases hol : ollamaGenerateContent olo with
    | ok c => simp [genPipeline, generateArticleGen, hds, hol]
    | error e2 =>
      refine ⟨?_, ?_, ?_⟩ <;>
        simp [genPipeline, generateArticleGen, hds, hol,
          ollamaGenerateContent_error_ne olo e2 hol]

/-! ## internal/services: generateSlug (content_service.go lines 313-364) -/

/-- Modelled from `strings.ToLower` as used on the title: ASCII letters are
lowered exactly as Go does; Go additionally lowers non-ASCII letters via
the Unicode tables, which this embedding leaves unchanged - those runes
(and, for a handful of exotic code points such as the Kelvin sign, their
Go images) are confined to the non-ASCII range that the very next step of
generateSlug strips, so no statement below observes the difference. -/
def goToLower (c : Char) : Char :=
  if 97 - 32 ≤ c.toNat ∧ c.toNat ≤ 122 - 32 then Char.ofNat (c.toNat + 32) else c

/-- The keep set of the third `strings.Map` of generateSlug: lowercase
ASCII letters, digits, and the hyphen (rune comparisons as code points). -/
def isSlugChar (c : Char) : Bool :=
  (decide (97 ≤ c.toNat) && decide (c.toNat ≤ 122)) ||
    (decide (48 ≤ c.toNat) && decide (c.toNat ≤ 57)) || c == '-'

/-- Does the string contain two adjacent hyphens (strings.Contains of the
literal double hyphen). -/
def contains2 : GoStr → Bool
  | [] => false
  | [_] => false
  | a :: b :: rest => (a == '-' && b == '-') || contains2 (b :: rest)

/-- One pass of `strings.ReplaceAll` of a double hyphen by a single one:
left to right, non-overlapping. -/
def replaceAll2 : GoStr → GoStr
  | [] => []
  | [c] => [c]
  | a :: b :: rest =>
    if a == '-' && b == '-' then '-' :: replaceAll2 rest
    else a :: replaceAll2 (b :: rest)

theorem replaceAll2_length_le : ∀ s : GoStr, (replaceAll2 s).length ≤ s.length
  | [] => by simp [replaceAll2]
  | [c] => by simp [replaceAll2]
  | a :: b :: rest => by
    simp only [replaceAll2]
    split
    · have := replaceAll2_length_le rest
      simp only [List.length_cons]
      omega
    · have := replaceAll2_length_le (b :: rest)
      simp only [List.length_cons] at *
      omega


theorem replaceAll2_length_lt :
    ∀ s : GoStr, contains2 s = true → (replaceAll2 s).length < s.length
  | [], h => by simp [contains2] at h
  | [c], h => by simp [contains2] at h
  | a :: b :: rest, h => by
    simp only [replaceAll2]
    split
    · have := replaceAll2_length_le rest
      simp only [List.length_cons]
      omega
    · rename_i hab
      simp only [contains2, Bool.or_eq_true] at h
      rcases h with h | h
      · exact absurd h hab
      · have := replaceAll2_length_lt (b :: rest) h
        simp only [List.length_cons] at *
        omega

/-- The `for strings.Contains(slug, "--")` loop of generateSlug: repeat the
replacement until no double hyphen remains. -/
def collapseLoop (s : GoStr) : GoStr :=
  if h : contains2 s then collapseLoop (replaceAll2 s) else s
termination_by s.length
decreasing_by exact replaceAll2_length_lt s h

theorem contains2_collapseLoop (s : GoStr) : contains2 (collapseLoop s) = false := by
  by_cases h : contains2 s
  · rw [collapseLoop, dif_pos h]
    exact contains2_collapseLoop (replaceAll2 s)
  · rw [collapseLoop, dif_neg h]
    simpa using h
termination_by s.length
decreasing_by exact replaceAll2_length_lt s h

theorem mem_replaceAll2 : ∀ (s : GoStr) (c : Char), c ∈ replaceAll2 s → c ∈ s
  | [], c, h => by simpa [replaceAll2] using h
  | [d], c, h => by simpa [replaceAll2] using h
  | a :: b :: rest, c, h => by
    simp only [replaceAll2] at h
    split at h
    · rename_i hab
      simp only [Bool.and_eq_true, beq_iff_eq] at hab
      rcases List.mem_cons.1 h with hc | hc
      · subst hc
        simp [hab.1]
      · have := mem_replaceAll2 rest c hc
        simp [this]
    · rcases List.mem_cons.1 h with hc | hc
      · simp [hc]
      · have := mem_replaceAll2 (b :: rest) c hc
        simp only [List.mem_cons] at this ⊢
        tauto

theorem mem_collapseLoop (s : GoStr) (c : Char) (h : c ∈ collapseLoop s) : c ∈ s := by
  by_cases hc : contains2 s
  · rw [collapseLoop, dif_pos hc] at h
    exact mem_replaceAll2 s c (mem_collapseLoop (replaceAll2 s) c h)
  · rwa [collapseLoop, dif_neg hc] at h
termination_by s.length
decreasing_by exact replaceAll2_length_lt s hc

/-- strings.TrimLeft with the hyphen cutset. -/
def trimLeftChar (t : Char) : GoStr → GoStr
  | [] => []
  | c :: rest => if c == t then trimLeftChar t rest else c :: rest

/-- strings.TrimRight with the hyphen cutset. -/
def trimRightChar (t : Char) : GoStr → GoStr
  | [] => []
  | c :: rest =>
    if (trimRightChar t rest).isEmpty then (if c == t then [] else [c])
    else c :: trimRightChar t rest

/-- strings.Trim with the hyphen cutset. -/
def trimChar (t : Char) (s : GoStr) : GoStr := trimRightChar t (trimLeftChar t s)

theorem mem_trimLeftChar (t : Char) : ∀ (s : GoStr) (c : Char),
    c ∈ trimLeftChar t s → c ∈ s
  | [], c, h => by simpa [trimLeftChar] using h
  | a :: rest, c, h => by
    simp only [trimLeftChar] at h
    split at h
    · have := mem_trimLeftChar t rest c h
      simp [this]
    · exact h

theorem mem_trimRightChar (t : Char) : ∀ (s : GoStr) (c : Char),
    c ∈ trimRightChar t s → c ∈ s
  | [], c, h => by simpa [trimRightChar] using h
  | a :: rest, c, h => by
    simp only [trimRightChar] at h
    split at h
    · split at h
      · simp at h
      · simp only [List.mem_singleton] at h
        simp [h]
    · rcases List.mem_cons.1 h with hc | hc
      · simp [hc]
      · have := mem_trimRightChar t rest c hc
        simp [this]

theorem contains2_tail (a : Char) (rest : GoStr)
    (h : contains2 (a :: rest) = false) : contains2 rest = false := by
  cases rest with
  | nil => rfl
  | cons b rest2 =>
    simp only [contains2, Bool.or_eq_false_iff] at h
    exact h.2

theorem contains2_trimLeftChar (t : Char) : ∀ s : GoStr,
    contains2 s = false → contains2 (trimLeftChar t s) = false
  | [], h => h
  | a :: rest, h => by
    simp only [trimLeftChar]
    split
    · exact contains2_trimLeftChar t rest (contains2_tail a rest h)
    · exact h

theorem contains2_singleton (c : Char) : contains2 [c] = false := rfl

theorem contains2_if_singleton (c : Char) (p : Bool) :
    contains2 (if p = true then [] else [c]) = false := by
  split <;> rfl

theorem trimRightChar_head (t : Char) : ∀ (s : GoStr) (d : Char) (r : GoStr),
    trimRightChar t s = d :: r → s.head? = some d := by
  intro s d r h
  cases s with
  | nil => simp [trimRightChar] at h
  | cons a rest =>
    simp only [trimRightChar] at h
    split at h
    · split at h
      · simp at h
      · simp only [List.cons.injEq] at h
        simp [h.1]
    · simp only [List.cons.injEq] at h
      simp [h.1]

theorem contains2_trimRightChar (t : Char) : ∀ s : GoStr,
    contains2 s = false → contains2 (trimRightChar t s) = false
  | [], h => h
  | a :: rest, h => by
    simp only [trimRightChar]
    split
    · split <;> rfl
    · rename_i hne
      have hrest := contains2_trimRightChar t rest (contains2_tail a rest h)
      rcases hr : trimRightChar t rest with _ | ⟨d, r2⟩
      · rw [hr] at hne
        simp at hne
      · have hd : rest.head? = some d := trimRightChar_head t rest d r2 hr
        cases rest with
        | nil => simp at hd
        | cons b rest2 =>
          simp only [List.head?_cons, Option.some.injEq] at hd
          subst hd
          rw [hr] at hrest
          simp only [contains2, Bool.or_eq_false_iff] at h ⊢
          exact ⟨h.1, hrest⟩

theorem trimRightChar_getLast (t : Char) : ∀ (s : GoStr) (c : Char),
    (trimRightChar t s).getLast? = some c → (c == t) = false
  | [], c, h => by simp [trimRightChar] at h
  | a :: rest, c, h => by
    simp only [trimRightChar] at h
    split at h
    · split at h
      · simp at h
      · rename_i hat
        simp only [List.getLast?_singleton, Option.some.injEq] at h
        subst h
        simpa using hat
    · rename_i hne
      rcases hr : trimRightChar t rest with _ | ⟨d, r2⟩
      · rw [hr] at hne
        simp at hne
      · rw [hr] at h
        rw [List.getLast?_cons_cons] at h
        exact trimRightChar_getLast t rest c (by rw [hr]; exact h)

theorem trimLeftChar_head (t : Char) : ∀ (s : GoStr) (c : Char),
    (trimLeftChar t s).head? = some c → (c == t) = false
  | [], c, h => by simp [trimLeftChar] at h
  | a :: rest, c, h => by
    simp only [trimLeftChar] at h
    split at h
    · exact trimLeftChar_head t rest c h
    · rename_i hat
      simp only [List.head?_cons, Option.some.injEq] at h
      subst h
      simpa using hat

theorem trimRightChar_cons_ne (t a : Char) (l : GoStr) (ha : (a == t) = false) :
    ∃ r, trimRightChar t (a :: l) = a :: r := by
  simp only [trimRightChar]
  split
  · exact ⟨[], by simp [ha]⟩
  · exact ⟨trimRightChar t l, rfl⟩

theorem trimRightChar_eq_take (t : Char) : ∀ s : GoStr,
    ∃ k, trimRightChar t s = s.take k
  | [] => ⟨0, rfl⟩
  | a :: rest => by
    simp only [trimRightChar]
    split
    · split
      · exact ⟨0, by simp⟩
      · exact ⟨1, by simp⟩
    · obtain ⟨k, hk⟩ := trimRightChar_eq_take t rest
      exact ⟨k + 1, by rw [List.take_succ_cons, ← hk]⟩

theorem trimRightChar_id_of_getLast (t : Char) : ∀ (s : GoStr) (c : Char),
    s.getLast? = some c → (c == t) = false → trimRightChar t s = s
  | [], c, h, _ => by simp at h
  | [a], c, h, hct => by
    simp only [List.getLast?_singleton, Option.some.injEq] at h
    subst h
    simp [trimRightChar, hct]
  | a :: b :: rest, c, h, hct => by
    rw [List.getLast?_cons_cons] at h
    have hid := trimRightChar_id_of_getLast t (b :: rest) c h hct
    simp only [trimRightChar] at hid ⊢
    rw [hid]
    simp

theorem contains2_take : ∀ (l : GoStr) (k : Nat),
    contains2 l = false → contains2 (l.take k) = false
  | [], k, _ => by simp [contains2]
  | [a], k, _ => by
    cases k with
    | zero => rfl
    | succ k => simp [contains2]
  | a :: b :: rest, 0, h => rfl
  | a :: b :: rest, 1, h => rfl
  | a :: b :: rest, k + 2, h => by
    simp only [List.take_succ_cons]
    simp only [contains2, Bool.or_eq_false_iff] at h ⊢
    refine ⟨h.1, ?_⟩
    have := contains2_take (b :: rest) (k + 1) h.2
    simpa [List.take_succ_cons] using this

theorem takeBytes_ascii : ∀ (l : GoStr) (n : Nat),
    (∀ c ∈ l, csize c = 1) → takeBytes n l = l.take n
  | [], n, _ => by simp [takeBytes]
  | c :: rest, n, h => by
    simp only [takeBytes, h c (by simp)]
    cases n with
    | zero => rw [if_neg (by omega)]; rfl
    | succ n =>
      rw [if_pos (by omega), List.take_succ_cons]
      have hn : n + 1 - 1 = n := by omega
      rw [hn, takeBytes_ascii rest n fun d hd => h d (by simp [hd])]

theorem takeBytes_append_fit : ∀ (l1 l2 : GoStr) (n : Nat), byteLen l1 ≤ n →
    takeBytes n (l1 ++ l2) = l1 ++ takeBytes (n - byteLen l1) l2
  | [], l2, n, _ => by simp [byteLen]
  | c :: rest, l2, n, h => by
    rw [byteLen_cons] at h
    have hc : csize c ≤ n := by omega
    simp only [List.cons_append, takeBytes, if_pos hc, byteLen_cons, List.append_eq]
    rw [takeBytes_append_fit rest l2 (n - csize c) (by omega)]
    have : n - csize c - byteLen rest = n - (csize c + byteLen rest) := by omega
    rw [this]

theorem byteLen_take_le (l : GoStr) (k : Nat) : byteLen (l.take k) ≤ byteLen l := by
  conv_rhs => rw [← List.take_append_drop k l]
  rw [byteLen_append]
  omega

theorem isSlugChar_csize (c : Char) (h : isSlugChar c = true) : csize c = 1 := by
  simp only [isSlugChar, Bool.or_eq_true, Bool.and_eq_true, decide_eq_true_eq,
    beq_iff_eq] at h
  have hlt : c.toNat < 0x80 := by
    rcases h with (h | h) | h
    · omega
    · omega
    · subst h
      decide
  unfold csize
  rw [if_pos hlt]

theorem isDigitB_csize (c : Char) (h : isDigitB c = true) : csize c = 1 := by
  simp only [isDigitB, Bool.and_eq_true, decide_eq_true_eq] at h
  unfold csize
  rw [if_pos (by omega)]

theorem isDigitB_ne_hyphen (c : Char) (h : isDigitB c = true) : (c == '-') = false := by
  simp only [isDigitB, Bool.and_eq_true, decide_eq_true_eq] at h
  simp only [beq_eq_false_iff_ne, ne_eq]
  intro hc
  subst hc
  simp at h

/-- strings.HasPrefix: does the second string start with the first. -/
def goStartsWith : GoStr → GoStr → Bool
  | [], _ => true
  | _ :: _, [] => false
  | p :: ps, c :: cs => p == c && goStartsWith ps cs

theorem goStartsWith_self_append : ∀ p x : GoStr, goStartsWith p (p ++ x) = true
  | [], _ => rfl
  | a :: ps, x => by simp [goStartsWith, goStartsWith_self_append ps x]

theorem isEmpty_false_of_ne {l : GoStr} (h : l ≠ []) : l.isEmpty = false := by
  cases l with
  | nil => exact absurd rfl h
  | cons a rest => rfl

/-- The cleaning stages of generateSlug before the fallback and length
checks: Unicode lowering, strip of non-ASCII runes, space to hyphen,
strip of non slug runes, hyphen collapsing, and the trim of leading and
trailing hyphens (content_service.go lines 315-348). -/
def slugCore (title : GoStr) : GoStr :=
  trimChar '-'
    (collapseLoop
      ((((title.map goToLower).filter fun r => decide (r.toNat < 128)).map
          fun r => if r == ' ' then '-' else r).filter isSlugChar))

/-- Translated from `generateSlug` (content_service.go lines 313-364): the
cleaning stages, then the timestamp fallback when the result is empty, then
the 100-byte truncation with a final trim of a trailing hyphen.  `now` is
the time.Now().Unix() tick. -/
def generateSlug (now : Nat) (title : GoStr) : GoStr :=
  if (slugCore title).isEmpty then
    if 100 < byteLen (("article-").data ++ natDigits now) then
      trimRightChar '-' (takeBytes 100 (("article-").data ++ natDigits now))
    else ("article-").data ++ natDigits now
  else
    if 100 < byteLen (slugCore title) then
      trimRightChar '-' (takeBytes 100 (slugCore title))
    else slugCore title

/-- The regular language of the claim: non-empty, at most 100 runes, only
lowercase ASCII letters, digits and hyphens, no doubled hyphen, and no
leading or trailing hyphen. -/
def slugOkB (s : GoStr) : Bool :=
  !s.isEmpty && decide (s.length ≤ 100) && s.all isSlugChar && !contains2 s &&
    !(s.head? == some '-') && !(s.getLast? == some '-')

/-- The timestamp fallback shape of the claim: the article- marker followed
by a non-empty digit run. -/
def fallbackShapeB (s : GoStr) : Bool :=
  goStartsWith (("article-").data) s && !(s.drop 8).isEmpty &&
    (s.drop 8).all isDigitB

theorem slugCore_all (title : GoStr) : ∀ c ∈ slugCore title, isSlugChar c = true := by
  intro c hc
  unfold slugCore trimChar at hc
  have h1 := mem_trimRightChar '-' _ c hc
  have h2 := mem_trimLeftChar '-' _ c h1
  have h3 := mem_collapseLoop _ c h2
  exact List.of_mem_filter h3

theorem slugCore_nodouble (title : GoStr) : contains2 (slugCore title) = false :=
  contains2_trimRightChar _ _ (contains2_trimLeftChar _ _ (contains2_collapseLoop _))

theorem slugCore_head (title : GoStr) (c : Char)
    (h : (slugCore title).head? = some c) : (c == '-') = false := by
  unfold slugCore trimChar at h
  rcases heq : trimRightChar '-'
      (trimLeftChar '-'
        (collapseLoop
          ((((title.map goToLower).filter fun r => decide (r.toNat < 128)).map
              fun r => if r == ' ' then '-' else r).filter isSlugChar)))
    with _ | ⟨d, r⟩
  · rw [heq] at h
    simp at h
  · rw [heq] at h
    simp only [List.head?_cons, Option.some.injEq] at h
    rw [← h]
    exact trimLeftChar_head '-' _ d (trimRightChar_head '-' _ d r heq)

theorem slugCore_getLast (title : GoStr) (c : Char)
    (h : (slugCore title).getLast? = some c) : (c == '-') = false :=
  trimRightChar_getLast '-' _ c h

/-- C3: for every title (and any clock tick), the derived slug either
satisfies the regular shape - non-empty, at most 100 runes, only lowercase
ASCII letters, digits and single hyphens, no leading or trailing hyphen -
or is the timestamp fallback: article- followed by digits. -/
theorem generateSlug_wellformed (now : Nat) (title : GoStr) :
    slugOkB (generateSlug now title) = true ∨
      fallbackShapeB (generateSlug now title) = true := by
  have hDdig : ∀ c ∈ natDigits now, isDigitB c = true := natDigits_all_digits now
  have hDascii : ∀ c ∈ natDigits now, csize c = 1 :=
    fun c hc => isDigitB_csize c (hDdig c hc)
  unfold generateSlug
  by_cases hemp : (slugCore title).isEmpty = true
  · rw [if_pos hemp]
    right
    by_cases hlen : 100 < byteLen (("article-").data ++ natDigits now)
    · rw [if_pos hlen]
      have htake : takeBytes 100 (("article-").data ++ natDigits now) =
          ("article-").data ++ (natDigits now).take 92 := by
        rw [takeBytes_append_fit _ _ 100 (by decide)]
        have h8 : (100 : Nat) - byteLen (("article-").data) = 92 := by decide
        rw [h8, takeBytes_ascii _ _ hDascii]
      have hDlen : 92 < (natDigits now).length := by
        have h1 := byteLen_append (("article-").data) (natDigits now)
        have h2 : byteLen (("article-").data) = 8 := by decide
        have h3 := byteLen_eq_length _ hDascii
        omega
      have htne : (natDigits now).take 92 ≠ [] := by
        intro hnil
        have hlt := congrArg List.length hnil
        rw [List.length_take] at hlt
        simp only [List.length_nil] at hlt
        omega
      obtain ⟨y, hy⟩ : ∃ y, ((natDigits now).take 92).getLast? = some y := by
        cases hg : ((natDigits now).take 92).getLast? with
        | none => exact absurd (List.getLast?_eq_none_iff.1 hg) htne
        | some z => exact ⟨z, rfl⟩
      have hyA : ((("article-").data ++ (natDigits now).take 92).getLast?
          = some y) := by
        rw [List.getLast?_append_of_ne_nil _ htne]
        exact hy
      have hymem : y ∈ natDigits now := by
        obtain ⟨hne, hyl⟩ :=
          List.mem_getLast?_eq_getLast (l := (natDigits now).take 92) (x := y)
            (by simp [Option.mem_def, hy])
        exact List.mem_of_mem_take (hyl ▸ List.getLast_mem hne)
      have hyne : (y == '-') = false := isDigitB_ne_hyphen y (hDdig y hymem)
      rw [htake, trimRightChar_id_of_getLast '-' _ y hyA hyne]
      unfold fallbackShapeB
      have h1 : goStartsWith (("article-").data)
          (("article-").data ++ (natDigits now).take 92) = true :=
        goStartsWith_self_append _ _
      have h2 : (("article-").data ++ (natDigits now).take 92).drop 8 =
          (natDigits now).take 92 := by
        have hA8 : (("article-").data : GoStr).length = 8 := rfl
        have h3 := List.drop_left (("article-").data) ((natDigits now).take 92)
        rw [hA8] at h3
        exact h3
      rw [h1, h2, isEmpty_false_of_ne htne]
      simp only [Bool.not_false, Bool.true_and, Bool.and_true, List.all_eq_true]
      intro c hc
      exact hDdig c (List.mem_of_mem_take hc)
    · rw [if_neg hlen]
      unfold fallbackShapeB
      have h1 : goStartsWith (("article-").data)
          (("article-").data ++ natDigits now) = true :=
        goStartsWith_self_append _ _
      have h2 : (("article-").data ++ natDigits now).drop 8 = natDigits now := by
        have hA8 : (("article-").data : GoStr).length = 8 := rfl
        have h3 := List.drop_left (("article-").data) (natDigits now)
        rw [hA8] at h3
        exact h3
      rw [h1, h2, isEmpty_false_of_ne (natDigits_ne_nil now)]
      simp only [Bool.not_false, Bool.true_and, Bool.and_true, List.all_eq_true]
      exact hDdig
  · rw [if_neg hemp]
    left
    have hSall := slugCore_all title
    have hSascii : ∀ c ∈ slugCore title, csize c = 1 :=
      fun c hc => isSlugChar_csize c (hSall c hc)
    by_cases hlen : 100 < byteLen (slugCore title)
    · rw [if_pos hlen]
      obtain ⟨c0, rest, hS⟩ : ∃ c0 rest, slugCore title = c0 :: rest := by
        cases hS : slugCore title with
        | nil =>
          rw [hS] at hemp
          exact absurd rfl hemp
        | cons a r => exact ⟨a, r, rfl⟩
      have hc0 : (c0 == '-') = false := slugCore_head title c0 (by rw [hS]; rfl)
      have hc0sz : csize c0 = 1 := hSascii c0 (by rw [hS]; simp)
      have htb : takeBytes 100 (slugCore title) = (slugCore title).take 100 :=
        takeBytes_ascii _ _ hSascii
      have hstep : takeBytes 100 (slugCore title) = c0 :: takeBytes 99 rest := by
        rw [hS]
        simp only [takeBytes, hc0sz]
        rw [if_pos (by omega)]
      obtain ⟨r, hr⟩ := trimRightChar_cons_ne '-' c0 (takeBytes 99 rest) hc0
      rw [hstep, hr]
      have hmemS : ∀ x ∈ c0 :: r, x ∈ slugCore title := by
        intro x hx
        rw [← hr] at hx
        have h1 := mem_trimRightChar '-' _ x hx
        rcases List.mem_cons.1 h1 with h | h
        · rw [hS]
          simp [h]
        · have h2 := mem_takeBytes h
          rw [hS]
          simp [h2]
      have hall : ∀ x ∈ c0 :: r, isSlugChar x = true :=
        fun x hx => hSall x (hmemS x hx)
      have hlenres : (c0 :: r).length ≤ 100 := by
        have hba : byteLen (c0 :: r) = (c0 :: r).length :=
          byteLen_eq_length _ fun x hx => isSlugChar_csize x (hall x hx)
        obtain ⟨k, hk⟩ := trimRightChar_eq_take '-' (c0 :: takeBytes 99 rest)
        rw [hr] at hk
        have h1 : byteLen (c0 :: r) ≤ byteLen (c0 :: takeBytes 99 rest) := by
          rw [hk]
          exact byteLen_take_le _ _
        have h2 : byteLen (c0 :: takeBytes 99 rest) ≤ 100 := by
          rw [byteLen_cons, hc0sz]
          have := byteLen_takeBytes_le 99 rest
          omega
        omega
      have hc2 : contains2 (c0 :: r) = false := by
        rw [← hr]
        apply contains2_trimRightChar
        rw [← hstep, htb]
        exact contains2_take _ 100 (slugCore_nodouble title)
      have hhead : ((c0 :: r).head? == some '-') = false := by
        simp only [List.head?_cons]
        show (c0 == '-') = false
        exact hc0
      have hlast : ((c0 :: r).getLast? == some '-') = false := by
        cases hg : (c0 :: r).getLast? with
        | none => rfl
        | some z =>
          have hz := trimRightChar_getLast '-' (c0 :: takeBytes 99 rest) z
            (by rw [hr]; exact hg)
          show (z == '-') = false
          exact hz
      simp only [slugOkB, List.isEmpty_cons, Bool.not_false, hc2, hhead, hlast,
        Bool.and_eq_true, Bool.not_eq_true', decide_eq_true_eq, List.all_eq_true]
      exact ⟨⟨⟨⟨⟨trivial, hlenres⟩, hall⟩, trivial⟩, trivial⟩, trivial⟩
    · rw [if_neg hlen]
      have hba : byteLen (slugCore title) = (slugCore title).length :=
        byteLen_eq_length _ hSascii
      have hlenres : (slugCore title).length ≤ 100 := by omega
      have hhead : ((slugCore title).head? == some '-') = false := by
        cases hh : (slugCore title).head? with
        | none => rfl
        | some z =>
          have hz := slugCore_head title z hh
          show (z == '-') = false
          exact hz
      have hlast : ((slugCore title).getLast? == some '-') = false := by
        cases hh : (slugCore title).getLast? with
        | none => rfl
        | some z =>
          have hz := slugCore_getLast title z hh
          show (z == '-') = false
          exact hz
      have hie : (slugCore title).isEmpty = false := by
        cases he : (slugCore title).isEmpty with
        | false => rfl
        | true => exact absurd he hemp
      simp only [slugOkB, hie, Bool.not_false, hhead, hlast,
        slugCore_nodouble title, Bool.and_eq_true, Bool.not_eq_true',
        decide_eq_true_eq, List.all_eq_true]
      exact ⟨⟨⟨⟨⟨trivial, hlenres⟩, hSall⟩, trivial⟩, trivial⟩, trivial⟩

/-! ## internal/services: parseArticle (content_service.go lines 236-300) -/

/-- strings.Split of a string on the newline separator. -/
def splitLines : GoStr → List GoStr
  | [] => [[]]
  | c :: rest =>
    match splitLines rest with
    | [] => [[]]
    | l :: ls => if c == '\n' then [] :: l :: ls else (c :: l) :: ls

/-- strings.Join of lines with the newline separator. -/
def joinLines : List GoStr → GoStr
  | [] => []
  | [l] => l
  | l :: l2 :: ls => l ++ '\n' :: joinLines (l2 :: ls)

/-- Right half of strings.TrimSpace: drop trailing white space. -/
def trimSpaceRight : GoStr → GoStr
  | [] => []
  | c :: rest =>
    if (trimSpaceRight rest).isEmpty then (if goIsSpace c then [] else [c])
    else c :: trimSpaceRight rest

/-- strings.TrimSpace: drop leading and trailing white space. -/
def trimSpace (s : GoStr) : GoStr := trimSpaceRight (s.dropWhile goIsSpace)

/-- Loop state of parseArticle: the title found so far, the collected body
lines, and the contentStarted flag. -/
structure ParseState where
  title : GoStr
  contentLines : List GoStr
  contentStarted : Bool

/-- One iteration of the parseArticle loop (content_service.go lines
248-276).  Checks are on the trimmed line; the body collects the original
line.  The heading branch strips the two marker runes (TrimPrefix under the
established HasPrefix). -/
def parseLine (st : ParseState) (orig : GoStr) : ParseState :=
  let line := trimSpace orig
  if line.isEmpty then
    if st.contentStarted then { st with contentLines := st.contentLines ++ [[]] }
    else st
  else if goStartsWith (("# ").data) line then
    { st with title := line.drop 2, contentStarted := true }
  else if st.title.isEmpty then
    { st with title := line, contentStarted := true }
  else
    { st with contentStarted := true, contentLines := st.contentLines ++ [orig] }

/-- Title post-processing of parseArticle (lines 283-294): keep printable
non-control runes, then truncate to 100 bytes. -/
def parseTitleClean (t : GoStr) : GoStr :=
  if 100 < byteLen (t.filter fun r => goIsPrint r && !goIsControl r) then
    takeBytes 100 (t.filter fun r => goIsPrint r && !goIsControl r)
  else t.filter fun r => goIsPrint r && !goIsControl r

/-- Translated from `parseArticle`: split into lines, run the loop,
substitute the fixed fallback title when none was found, clean and truncate
the title, and join the collected body lines.  The `utf8.ValidString`
coercion is the identity in the rune model. -/
def parseArticle (content : GoStr) : GoStr × GoStr :=
  let st := (splitLines content).foldl parseLine ⟨[], [], false⟩
  (parseTitleClean (if st.title.isEmpty then ("养生健康文章").data else st.title),
    joinLines st.contentLines)

/-- C5 counterexample: with two top-level headings the parsed title is the
LAST heading (B), not the first (A), and the heading lines are removed from
the body - so the claim that the first heading becomes the title with the
body beginning after it fails. -/
theorem parseArticle_last_heading_ce :
    parseArticle (("# A\nbody\n# B").data) = (("B").data, ("body").data) ∧
      ((("B").data : GoStr) == ("A").data) = false := by
  constructor
  · rfl
  · rfl

theorem trimSpaceRight_getLast : ∀ (s : GoStr) (c : Char),
    (trimSpaceRight s).getLast? = some c → goIsSpace c = false
  | [], c, h => by simp [trimSpaceRight] at h
  | a :: rest, c, h => by
    simp only [trimSpaceRight] at h
    split at h
    · split at h
      · simp at h
      · rename_i hat
        simp only [List.getLast?_singleton, Option.some.injEq] at h
        rw [← h]
        simpa using hat
    · rename_i hne
      rcases hr : trimSpaceRight rest with _ | ⟨d, r2⟩
      · rw [hr] at hne
        simp at hne
      · rw [hr] at h
        rw [List.getLast?_cons_cons] at h
        exact trimSpaceRight_getLast rest c (by rw [hr]; exact h)

theorem trimSpace_getLast (s : GoStr) (c : Char)
    (h : (trimSpace s).getLast? = some c) : goIsSpace c = false :=
  trimSpaceRight_getLast _ c h

theorem heading_drop_ne (l : GoStr)
    (h : goStartsWith (("# ").data) (trimSpace l) = true) :
    (trimSpace l).drop 2 ≠ [] := by
  rcases ht : trimSpace l with _ | ⟨c1, rest1⟩
  · rw [ht] at h
    simp [goStartsWith] at h
  rcases rest1 with _ | ⟨c2, rest⟩
  · rw [ht] at h
    simp [goStartsWith] at h
  · rw [ht] at h
    simp only [goStartsWith, Bool.and_eq_true, beq_iff_eq] at h
    show rest ≠ []
    intro hnil
    have hlast : (trimSpace l).getLast? = some c2 := by
      rw [ht, hnil]
      rfl
    have hsp := trimSpace_getLast l c2 hlast
    have hc2 : c2 = ' ' := by
      have := h.2.1
      simp only [String.data] at this
      exact this.symm
    rw [hc2] at hsp
    simp [goIsSpace] at hsp

/-- The per-line heading extraction of the amended claim. -/
def hdF (l : GoStr) : Option GoStr :=
  if goStartsWith (("# ").data) (trimSpace l) then some ((trimSpace l).drop 2)
  else none

/-- The per-line non-blank extraction of the amended claim. -/
def nbF (l : GoStr) : Option GoStr :=
  if (trimSpace l).isEmpty then none else some (trimSpace l)

/-- Spec side of the refinement: the title candidate from the LAST
top-level heading line, if any. -/
def specLastHeading (lines : List GoStr) : Option GoStr :=
  (lines.filterMap hdF).getLast?

/-- Spec side: the first non-blank line, trimmed. -/
def specFirstNonBlank (lines : List GoStr) : Option GoStr :=
  (lines.filterMap nbF).head?

/-- Spec side of the amended claim: the raw title is the last heading if
one exists, else the first non-blank line, else the fixed fallback. -/
def specTitleRaw (lines : List GoStr) : GoStr :=
  match specLastHeading lines with
  | some t => t
  | none =>
    match specFirstNonBlank lines with
    | some t => t
    | none => ("养生健康文章").data

/-- The title computed so far by the loop (empty while nothing was found). -/
def titleSoFar (lines : List GoStr) : GoStr :=
  match specLastHeading lines with
  | some t => t
  | none => (specFirstNonBlank lines).getD []

theorem head?_mem {α : Type} {l : List α} {a : α} (h : l.head? = some a) : a ∈ l := by
  cases l with
  | nil => simp at h
  | cons x xs =>
    simp only [List.head?_cons, Option.some.injEq] at h
    rw [← h]
    exact List.mem_cons_self x xs

theorem getLast?_mem {α : Type} {l : List α} {a : α} (h : l.getLast? = some a) :
    a ∈ l := by
  obtain ⟨hne, hyl⟩ := List.mem_getLast?_eq_getLast (l := l) (x := a)
    (by simp [Option.mem_def, h])
  rw [hyl]
  exact List.getLast_mem hne

theorem specLastHeading_ne (lines : List GoStr) (t : GoStr)
    (h : specLastHeading lines = some t) : t ≠ [] := by
  unfold specLastHeading at h
  obtain ⟨l, _, hl⟩ := List.mem_filterMap.1 (getLast?_mem h)
  unfold hdF at hl
  by_cases hh : goStartsWith (("# ").data) (trimSpace l) = true
  · rw [if_pos hh] at hl
    simp only [Option.some.injEq] at hl
    rw [← hl]
    exact heading_drop_ne l hh
  · rw [if_neg hh] at hl
    simp at hl

theorem specFirstNonBlank_ne (lines : List GoStr) (t : GoStr)
    (h : specFirstNonBlank lines = some t) : t ≠ [] := by
  unfold specFirstNonBlank at h
  obtain ⟨l, _, hl⟩ := List.mem_filterMap.1 (head?_mem h)
  unfold nbF at hl
  by_cases hb : (trimSpace l).isEmpty = true
  · rw [if_pos hb] at hl
    simp at hl
  · rw [if_neg hb] at hl
    simp only [Option.some.injEq] at hl
    rw [← hl]
    intro hnil
    rw [hnil] at hb
    exact hb rfl

theorem specLastHeading_append_some (p : List GoStr) (l : GoStr) (t : GoStr)
    (h : hdF l = some t) : specLastHeading (p ++ [l]) = some t := by
  unfold specLastHeading
  rw [List.filterMap_append, List.filterMap_cons_some h, List.filterMap_nil]
  exact List.getLast?_concat _

theorem specLastHeading_append_none (p : List GoStr) (l : GoStr)
    (h : hdF l = none) : specLastHeading (p ++ [l]) = specLastHeading p := by
  unfold specLastHeading
  rw [List.filterMap_append, List.filterMap_cons_none h, List.filterMap_nil,
    List.append_nil]

theorem specFirstNonBlank_append_some (p : List GoStr) (l : GoStr) (t : GoStr)
    (h : specFirstNonBlank p = some t) :
    specFirstNonBlank (p ++ [l]) = some t := by
  unfold specFirstNonBlank at *
  rw [List.filterMap_append]
  rcases hfm : p.filterMap nbF with _ | ⟨a, as⟩
  · rw [hfm] at h
    simp at h
  · rw [hfm] at h
    simpa using h

theorem specFirstNonBlank_append_none (p : List GoStr) (l : GoStr)
    (h : specFirstNonBlank p = none) : specFirstNonBlank (p ++ [l]) = nbF l := by
  unfold specFirstNonBlank at *
  rw [List.filterMap_append, List.head?_eq_none_iff.1 h, List.nil_append]
  cases hnb : nbF l with
  | none => rw [List.filterMap_cons_none hnb, List.filterMap_nil]; rfl
  | some t => rw [List.filterMap_cons_some hnb, List.filterMap_nil]; rfl

theorem titleSoFar_append_skip (p : List GoStr) (l : GoStr)
    (hh : hdF l = none) (hb : nbF l = none) :
    titleSoFar (p ++ [l]) = titleSoFar p := by
  unfold titleSoFar
  rw [specLastHeading_append_none p l hh]
  cases hlh : specLastHeading p with
  | some t => rfl
  | none =>
    cases hfb : specFirstNonBlank p with
    | some t => rw [specFirstNonBlank_append_some p l t hfb]
    | none => rw [specFirstNonBlank_append_none p l hfb, hb]

theorem titleSoFar_append_heading (p : List GoStr) (l : GoStr) (t : GoStr)
    (hh : hdF l = some t) : titleSoFar (p ++ [l]) = t := by
  unfold titleSoFar
  rw [specLastHeading_append_some p l t hh]

theorem titleSoFar_append_first (p : List GoStr) (l : GoStr)
    (hz : titleSoFar p = []) (hh : hdF l = none) (t : GoStr)
    (hb : nbF l = some t) : titleSoFar (p ++ [l]) = t := by
  have hlh : specLastHeading p = none := by
    cases hlh : specLastHeading p with
    | none => rfl
    | some u =>
      have hne := specLastHeading_ne p u hlh
      unfold titleSoFar at hz
      rw [hlh] at hz
      exact absurd hz hne
  have hfb : specFirstNonBlank p = none := by
    cases hfb : specFirstNonBlank p with
    | none => rfl
    | some u =>
      have hne := specFirstNonBlank_ne p u hfb
      unfold titleSoFar at hz
      rw [hlh, hfb] at hz
      exact absurd hz hne
  unfold titleSoFar
  rw [specLastHeading_append_none p l hh, hlh,
    specFirstNonBlank_append_none p l hfb, hb]
  rfl

theorem titleSoFar_append_other (p : List GoStr) (l : GoStr)
    (hne : titleSoFar p ≠ []) (hh : hdF l = none) :
    titleSoFar (p ++ [l]) = titleSoFar p := by
  unfold titleSoFar
  rw [specLastHeading_append_none p l hh]
  cases hlh : specLastHeading p with
  | some t => rfl
  | none =>
    cases hfb : specFirstNonBlank p with
    | some t => rw [specFirstNonBlank_append_some p l t hfb]
    | none =>
      unfold titleSoFar at hne
      rw [hlh, hfb] at hne
      exact absurd rfl hne

theorem parseLine_blank (st : ParseState) (l : GoStr)
    (hb : (trimSpace l).isEmpty = true) :
    parseLine st l =
      if st.contentStarted then
        { st with contentLines := st.contentLines ++ [[]] }
      else st := by
  simp only [parseLine, if_pos hb]

theorem parseLine_heading (st : ParseState) (l : GoStr)
    (hb : (trimSpace l).isEmpty = false)
    (hh : goStartsWith (("# ").data) (trimSpace l) = true) :
    parseLine st l =
      { st with title := (trimSpace l).drop 2, contentStarted := true } := by
  simp only [parseLine]
  rw [if_neg (by simp [hb]), if_pos hh]

theorem parseLine_first (st : ParseState) (l : GoStr)
    (hb : (trimSpace l).isEmpty = false)
    (hh : goStartsWith (("# ").data) (trimSpace l) = false)
    (hte : st.title.isEmpty = true) :
    parseLine st l = { st with title := trimSpace l, contentStarted := true } := by
  simp only [parseLine]
  rw [if_neg (by simp [hb]), if_neg (by simp [hh]), if_pos hte]

theorem parseLine_content (st : ParseState) (l : GoStr)
    (hb : (trimSpace l).isEmpty = false)
    (hh : goStartsWith (("# ").data) (trimSpace l) = false)
    (hte : st.title.isEmpty = false) :
    parseLine st l =
      { st with contentStarted := true, contentLines := st.contentLines ++ [l] } := by
  simp only [parseLine]
  rw [if_neg (by simp [hb]), if_neg (by simp [hh]), if_neg (by simp [hte])]

theorem hdF_none_of_blank (l : GoStr) (hb : (trimSpace l).isEmpty = true) :
    hdF l = none := by
  have hts : trimSpace l = [] := by simpa using hb
  unfold hdF
  rw [hts]
  rfl

theorem nbF_none_of_blank (l : GoStr) (hb : (trimSpace l).isEmpty = true) :
    nbF l = none := by
  unfold nbF
  rw [if_pos hb]

theorem hdF_none_of_not_heading (l : GoStr)
    (hh : goStartsWith (("# ").data) (trimSpace l) = false) : hdF l = none := by
  unfold hdF
  rw [if_neg (by simp [hh])]

theorem foldl_parseLine_inv : ∀ (lines : List GoStr) (st : ParseState)
    (processed : List GoStr),
    st.title = titleSoFar processed →
    (∀ x ∈ st.contentLines, goStartsWith (("# ").data) (trimSpace x) = false) →
    (∀ x ∈ st.contentLines, ('\n') ∉ x) →
    (∀ x ∈ lines, ('\n') ∉ x) →
    (lines.foldl parseLine st).title = titleSoFar (processed ++ lines) ∧
      (∀ x ∈ (lines.foldl parseLine st).contentLines,
        goStartsWith (("# ").data) (trimSpace x) = false) ∧
      (∀ x ∈ (lines.foldl parseLine st).contentLines, ('\n') ∉ x)
  | [], st, processed, h1, h2, h3, _ => by
    simp only [List.foldl_nil, List.append_nil]
    exact ⟨h1, h2, h3⟩
  | l :: ls, st, processed, h1, h2, h3, h4 => by
    rw [List.foldl_cons]
    have hps : processed ++ l :: ls = (processed ++ [l]) ++ ls := by simp
    rw [hps]
    refine foldl_parseLine_inv ls (parseLine st l) (processed ++ [l]) ?_ ?_ ?_
      (fun x hx => h4 x (by simp [hx]))
    · -- title invariant after one line
      by_cases hb : (trimSpace l).isEmpty = true
      · rw [parseLine_blank st l hb,
          titleSoFar_append_skip processed l (hdF_none_of_blank l hb)
            (nbF_none_of_blank l hb)]
        split <;> exact h1
      · have hb' : (trimSpace l).isEmpty = false := by simpa using hb
        by_cases hh : goStartsWith (("# ").data) (trimSpace l) = true
        · rw [parseLine_heading st l hb' hh,
            titleSoFar_append_heading processed l ((trimSpace l).drop 2)
              (by unfold hdF; rw [if_pos hh])]
        · have hh' : goStartsWith (("# ").data) (trimSpace l) = false := by
            simpa using hh
          by_cases hte : st.title.isEmpty = true
          · have hz : titleSoFar processed = [] := by
              rw [← h1]
              simpa using hte
            rw [parseLine_first st l hb' hh' hte,
              titleSoFar_append_first processed l hz
                (hdF_none_of_not_heading l hh') (trimSpace l)
                (by unfold nbF; rw [if_neg (by simp [hb'])])]
          · have hte' : st.title.isEmpty = false := by simpa using hte
            have hne : titleSoFar processed ≠ [] := by
              rw [← h1]
              intro hnil
              rw [hnil] at hte'
              simp at hte'
            rw [parseLine_content st l hb' hh' hte',
              titleSoFar_append_other processed l hne
                (hdF_none_of_not_heading l hh')]
            exact h1
    · -- no heading line is ever collected into the body
      intro x hx
      by_cases hb : (trimSpace l).isEmpty = true
      · rw [parseLine_blank st l hb] at hx
        by_cases hcs : st.contentStarted = true
        · rw [if_pos hcs] at hx
          simp only [List.mem_append, List.mem_singleton] at hx
          rcases hx with hx | hx
          · exact h2 x hx
          · rw [hx]
            rfl
        · rw [if_neg hcs] at hx
          exact h2 x hx
      · have hb' : (trimSpace l).isEmpty = false := by simpa using hb
        by_cases hh : goStartsWith (("# ").data) (trimSpace l) = true
        · rw [parseLine_heading st l hb' hh] at hx
          exact h2 x hx
        · have hh' : goStartsWith (("# ").data) (trimSpace l) = false := by
            simpa using hh
          by_cases hte : st.title.isEmpty = true
          · rw [parseLine_first st l hb' hh' hte] at hx
            exact h2 x hx
          · have hte' : st.title.isEmpty = false := by simpa using hte
            rw [parseLine_content st l hb' hh' hte'] at hx
            simp only [List.mem_append, List.mem_singleton] at hx
            rcases hx with hx | hx
            · exact h2 x hx
            · rw [hx]
              exact hh'
    · -- collected body lines carry no newline
      intro x hx
      by_cases hb : (trimSpace l).isEmpty = true
      · rw [parseLine_blank st l hb] at hx
        by_cases hcs : st.contentStarted = true
        · rw [if_pos hcs] at hx
          simp only [List.mem_append, List.mem_singleton] at hx
          rcases hx with hx | hx
          · exact h3 x hx
          · rw [hx]
            simp
        · rw [if_neg hcs] at hx
          exact h3 x hx
      · have hb' : (trimSpace l).isEmpty = false := by simpa using hb
        by_cases hh : goStartsWith (("# ").data) (trimSpace l) = true
        · rw [parseLine_heading st l hb' hh] at hx
          exact h3 x hx
        · have hh' : goStartsWith (("# ").data) (trimSpace l) = false := by
            simpa using hh
          by_cases hte : st.title.isEmpty = true
          · rw [parseLine_first st l hb' hh' hte] at hx
            exact h3 x hx
          · have hte' : st.title.isEmpty = false := by simpa using hte
            rw [parseLine_content st l hb' hh' hte'] at hx
            simp only [List.mem_append, List.mem_singleton] at hx
            rcases hx with hx | hx
            · exact h3 x hx
            · rw [hx]
              exact h4 l (by simp)

theorem splitLines_ne_nil : ∀ s : GoStr, splitLines s ≠ []
  | [] => by simp [splitLines]
  | c :: rest => by
    simp only [splitLines]
    cases hsr : splitLines rest with
    | nil => simp
    | cons l ls =>
      dsimp only
      split <;> simp

theorem splitLines_no_newline : ∀ (s : GoStr) (x : GoStr),
    x ∈ splitLines s → ('\n') ∉ x
  | [], x, hx => by
    simp only [splitLines, List.mem_singleton] at hx
    rw [hx]
    simp
  | c :: rest, x, hx => by
    simp only [splitLines] at hx
    cases hsr : splitLines rest with
    | nil => exact absurd hsr (splitLines_ne_nil rest)
    | cons l ls =>
      rw [hsr] at hx
      dsimp only at hx
      by_cases hc : (c == '\n') = true
      · rw [if_pos hc] at hx
        rcases List.mem_cons.1 hx with hx | hx
        · rw [hx]
          simp
        · exact splitLines_no_newline rest x (by rw [hsr]; exact hx)
      · rw [if_neg hc] at hx
        rcases List.mem_cons.1 hx with hx | hx
        · rw [hx]
          intro hmem
          rcases List.mem_cons.1 hmem with hm | hm
          · rw [← hm] at hc
            simp at hc
          · have hl := splitLines_no_newline rest l (by rw [hsr]; simp)
            exact hl hm
        · exact splitLines_no_newline rest x (by rw [hsr]; simp [hx])

theorem splitLines_of_no_newline : ∀ s : GoStr, ('\n') ∉ s → splitLines s = [s]
  | [], _ => rfl
  | c :: rest, h => by
    have h2 : ('\n') ∉ rest := fun hm => h (by simp [hm])
    have hc : (c == '\n') = false := by
      have h1 : c ≠ '\n' := fun he => h (by simp [he])
      simpa using h1
    simp only [splitLines, splitLines_of_no_newline rest h2]
    rw [if_neg (by simp [hc])]

theorem splitLines_append_newline : ∀ (x y : GoStr), ('\n') ∉ x →
    splitLines (x ++ '\n' :: y) = x :: splitLines y
  | [], y, _ => by
    simp only [List.nil_append, splitLines]
    cases hsy : splitLines y with
    | nil => exact absurd hsy (splitLines_ne_nil y)
    | cons l ls => simp
  | c :: x, y, h => by
    have h2 : ('\n') ∉ x := fun hm => h (by simp [hm])
    have hc : (c == '\n') = false := by
      have h1 : c ≠ '\n' := fun he => h (by simp [he])
      simpa using h1
    simp only [List.cons_append, List.append_eq, splitLines,
      splitLines_append_newline x y h2]
    rw [if_neg (by simp [hc])]

theorem splitLines_joinLines_mem : ∀ (ls : List GoStr) (x : GoStr),
    (∀ l ∈ ls, ('\n') ∉ l) → x ∈ splitLines (joinLines ls) → x ∈ ls ∨ x = []
  | [], x, _, hx => by
    right
    simpa [joinLines, splitLines] using hx
  | [l], x, h, hx => by
    left
    rw [show joinLines [l] = l from rfl,
      splitLines_of_no_newline l (h l (by simp))] at hx
    simpa using hx
  | l :: l2 :: ls, x, h, hx => by
    rw [show joinLines (l :: l2 :: ls) = l ++ '\n' :: joinLines (l2 :: ls) from rfl,
      splitLines_append_newline l _ (h l (by simp))] at hx
    rcases List.mem_cons.1 hx with hx | hx
    · left
      simp [hx]
    · rcases splitLines_joinLines_mem (l2 :: ls) x
        (fun a ha => h a (by simp only [List.mem_cons] at ha ⊢; tauto)) hx with
        hm | hm
      · left
        simp only [List.mem_cons] at hm ⊢
        tauto
      · right
        exact hm

theorem titleSoFar_fallback (lines : List GoStr) :
    (if (titleSoFar lines).isEmpty then ("养生健康文章").data
     else titleSoFar lines) = specTitleRaw lines := by
  unfold titleSoFar specTitleRaw
  cases hh : specLastHeading lines with
  | some t =>
    have hne := specLastHeading_ne lines t hh
    simp [isEmpty_false_of_ne hne]
  | none =>
    cases hb : specFirstNonBlank lines with
    | some t =>
      have hne := specFirstNonBlank_ne lines t hb
      simp [isEmpty_false_of_ne hne]
    | none => simp

/-- C5 (amended): title and body parsing scans lines, and the parsed title
is the LAST top-level heading line (leading marker stripped) when any
heading line exists - every heading line is removed from the body rather
than kept after the first - else the first non-blank line, else the fixed
fallback; leading blank lines are dropped while later blank lines are
preserved, and the title is stripped of non-printable runes and truncated
to 100 bytes.  Formally: the parsed title equals the cleaned declarative
title, and no line of the parsed body is a top-level heading line. -/
theorem parseArticle_title_spec (content : GoStr) :
    (parseArticle content).1 =
        parseTitleClean (specTitleRaw (splitLines content)) ∧
      ((splitLines (parseArticle content).2).all
        fun l => !(goStartsWith (("# ").data) (trimSpace l))) = true := by
  have hnl : ∀ x ∈ splitLines content, ('\n') ∉ x :=
    fun x hx => splitLines_no_newline content x hx
  obtain ⟨ht, hnh, hnn⟩ := foldl_parseLine_inv (splitLines content)
    ⟨[], [], false⟩ [] rfl (by simp) (by simp) hnl
  simp only [List.nil_append] at ht
  constructor
  · show parseTitleClean
        (if ((splitLines content).foldl parseLine ⟨[], [], false⟩).title.isEmpty
         then ("养生健康文章").data
         else ((splitLines content).foldl parseLine ⟨[], [], false⟩).title) = _
    rw [ht]
    exact congrArg parseTitleClean (titleSoFar_fallback (splitLines content))
  · rw [List.all_eq_true]
    intro l hl
    rcases splitLines_joinLines_mem _ l hnn hl with hm | hm
    · simp only [Bool.not_eq_true']
      exact hnh l hm
    · rw [hm]
      rfl
